import Mathlib

/-!
Verification development for the OCR resume digitization service
(`api/services/vision_service.py`).

The Python source is shallowly embedded:
* strings are `String` / `List Char`;
* numbers coming from OCR geometry are modelled as rationals `ℚ`
  (the Python code mixes ints and floats; all the arithmetic it performs
  on geometry is exact on halves and means, which ℚ models exactly);
* Python `None` results become `Option`;
* Python regular expressions are modelled by a small executable
  backtracking matcher over an explicit item list, faithful to
  `re.search` semantics (leftmost match, alternation in written order,
  greedy counted classes, `.` not matching a newline) for the pattern
  shapes occurring in the source.
-/

set_option maxHeartbeats 4000000

namespace VisionService

/-! ## Python string primitives -/

/-- The whitespace set of Python's `str.strip()` / regex `\s`
(ASCII whitespace plus the Unicode space characters Python treats as
whitespace). -/
def pyWS (c : Char) : Bool :=
  c == ' ' || c == '\t' || c == '\n' || c == '\r' || c == '\x0b' || c == '\x0c' ||
  c == '\x1c' || c == '\x1d' || c == '\x1e' || c == '\x1f' || c == '\x85' || c == '\xa0' ||
  c.toNat == 0x1680 || (decide (0x2000 ≤ c.toNat) && decide (c.toNat ≤ 0x200a)) ||
  c.toNat == 0x2028 || c.toNat == 0x2029 || c.toNat == 0x202f ||
  c.toNat == 0x205f || c.toNat == 0x3000

/-- Drop matching characters from the right end of a list. -/
def dropRightWhile (p : Char → Bool) (l : List Char) : List Char :=
  (l.reverse.dropWhile p).reverse

/-- Python `str.strip(chars)`: drop characters satisfying `p` from both ends. -/
def pstrip (p : Char → Bool) (l : List Char) : List Char :=
  dropRightWhile p (l.dropWhile p)

/-- Worker for `collapseRuns`; the flag records whether we are inside a
run of characters satisfying `p` (whose first character has already been
replaced by `r`). -/
def collapseAux (p : Char → Bool) (r : Char) : Bool → List Char → List Char
  | _, [] => []
  | inRun, c :: cs =>
    if p c then
      if inRun then collapseAux p r true cs
      else r :: collapseAux p r true cs
    else c :: collapseAux p r false cs

/-- Python `re.sub(r"[…class…]+", r, s)`: replace every maximal run of
characters satisfying `p` by the single character `r`. -/
def collapseRuns (p : Char → Bool) (r : Char) (l : List Char) : List Char :=
  collapseAux p r false l

/-- First `some` result of `f` over a list (Python's pattern of looping
and breaking at the first hit). -/
def firstSome (f : α → Option β) : List α → Option β
  | [] => none
  | a :: l =>
    match f a with
    | some b => some b
    | none => firstSome f l

/-- Python `str.split(sep)` for a one-character separator: `""` yields
`[""]`, adjacent separators yield empty groups. -/
def splitSep (sep : Char) : List Char → List (List Char)
  | [] => [[]]
  | c :: cs =>
    if c = sep then [] :: splitSep sep cs
    else
      match splitSep sep cs with
      | [] => [[c]]
      | g :: gs => (c :: g) :: gs

/-- Python `str.splitlines()` over the standard line-break characters;
`\r\n` counts as a single break and there is no trailing empty line. -/
def isLineBreak (c : Char) : Bool :=
  c == '\n' || c == '\r' || c == '\x0b' || c == '\x0c' || c == '\x1c' ||
  c == '\x1d' || c == '\x1e' || c == '\x85' || c.toNat == 0x2028 || c.toNat == 0x2029

def splitlinesChars : List Char → List (List Char)
  | [] => []
  | '\r' :: '\n' :: rest => [] :: splitlinesChars rest
  | c :: rest =>
    if isLineBreak c then [] :: splitlinesChars rest
    else
      match splitlinesChars rest with
      | [] => [[c]]
      | g :: gs => (c :: g) :: gs

/-- Decimal value of a digit run that may contain single underscores
between digits, as accepted by Python `int()` (e.g. `int("1_0") = 10`);
accumulator style. -/
def digitsUValAux : ℕ → List Char → Option ℕ
  | acc, [] => some acc
  | acc, c :: cs =>
    if c.isDigit then digitsUValAux (10 * acc + (c.toNat - '0'.toNat)) cs
    else if c = '_' then
      match cs with
      | [] => none
      | d :: cs' =>
        if d.isDigit then digitsUValAux (10 * acc + (d.toNat - '0'.toNat)) cs'
        else none
    else none

def digitsUVal : List Char → Option ℕ
  | [] => none
  | c :: cs => if c.isDigit then digitsUValAux (c.toNat - '0'.toNat) cs else none

/-- Python `int(s)` (restricted to ASCII digits): strip whitespace,
optional sign, digits with single interior underscores; `none` models a
`ValueError`. -/
def pyInt (l : List Char) : Option ℤ :=
  match pstrip pyWS l with
  | '+' :: r => (digitsUVal r).map (fun n => (n : ℤ))
  | '-' :: r => (digitsUVal r).map (fun n => -(n : ℤ))
  | r => (digitsUVal r).map (fun n => (n : ℤ))

/-- Python `str.isdigit()` (restricted to ASCII digits): nonempty and
all digits. -/
def pyIsdigit (l : List Char) : Bool :=
  !l.isEmpty && l.all Char.isDigit

/-- Zero-padded decimal rendering of `v` to (total) width `w`, the
behaviour of Python's format spec `:0wd` (a negative sign occupies one
column). -/
def padZeroLeft (w : ℕ) (ds : List Char) : List Char :=
  List.replicate (w - ds.length) '0' ++ ds

def fmtIntWidth (w : ℕ) (v : ℤ) : List Char :=
  if v < 0 then '-' :: padZeroLeft (w - 1) (Nat.toDigits 10 v.natAbs)
  else padZeroLeft w (Nat.toDigits 10 v.natAbs)

/-! ## DateNormalizer (`normalize_date_str`, lines 189-273) -/

/-- The separator class of `re.sub(r"[.\- ]+", "/", dstr)`. -/
def dateSepClass (c : Char) : Bool :=
  c == '.' || c == '-' || c == ' '

/-- `dstr.strip()` (the source rebinds `dstr` to its stripped form). -/
def dateStripped (dstr : List Char) : List Char :=
  pstrip pyWS dstr

/-- `d = re.sub(r"[.\- ]+", "/", dstr); d = d.strip("/")`. -/
def dateNormChars (dstr : List Char) : List Char :=
  pstrip (fun c => c == '/') (collapseRuns dateSepClass '/' (dateStripped dstr))

/-- `parts = d.split("/")`. -/
def dateParts (dstr : List Char) : List (List Char) :=
  splitSep '/' (dateNormChars dstr)

/-- `p.isdigit() and (int(p) >= 1900 or int(p) >= 1000)` — the
plausible-year test used in the ≥4-group branch. -/
def isYearCand (p : List Char) : Bool :=
  pyIsdigit p && (decide (1900 ≤ ((digitsUVal p).getD 0)) || decide (1000 ≤ ((digitsUVal p).getD 0)))

/-- `try: dd = int(…); 27 if out of [1,31] except: 27`; the `none`
argument models an `IndexError` on `other_parts[0]`. -/
def dayOrSentinel (p : Option (List Char)) : ℤ :=
  match p with
  | none => 27
  | some s =>
    match pyInt s with
    | none => 27
    | some v => if v < 1 ∨ 31 < v then 27 else v

/-- `try: mm = int(…); 8 if out of [1,12] except: 8`. -/
def monthOrSentinel (p : Option (List Char)) : ℤ :=
  match p with
  | none => 8
  | some s =>
    match pyInt s with
    | none => 8
    | some v => if v < 1 ∨ 12 < v then 8 else v

/-- `try: yy_num = int(yy); two-digit pivot (>30 → 1900s, ≤30 → 2000s)
except: 1900`. -/
def yearVal (yy : List Char) : ℤ :=
  match pyInt yy with
  | none => 1900
  | some v => if yy.length = 2 then (if 30 < v then 1900 + v else 2000 + v) else v

/-- `re.match(r"^(19|20)\d{2}$", d)`. -/
def yearOnlyMatch : List Char → Bool
  | [a, b, c, d] =>
    ((a == '1' && b == '9') || (a == '2' && b == '0')) && c.isDigit && d.isDigit
  | _ => false

/-- `f"{yy:04d}-{mm:02d}-{dd:02d}"`. -/
def fmtYMD (yy mm dd : ℤ) : List Char :=
  fmtIntWidth 4 yy ++ '-' :: (fmtIntWidth 2 mm ++ '-' :: fmtIntWidth 2 dd)

/-- `f"{yy:04d}-{mm:02d}"`. -/
def fmtYM (yy mm : ℤ) : List Char :=
  fmtIntWidth 4 yy ++ '-' :: fmtIntWidth 2 mm

/-- Shallow embedding of `normalize_date_str` (vision_service.py lines
189-273).  Python returns `None` for a falsy argument, hence the
`Option` result. -/
def normalize_date_str (dstr : String) : Option String :=
  if dstr.isEmpty then none
  else
    let parts := dateParts dstr.toList
    if 4 ≤ parts.length then
      let year_candidates := parts.filter isYearCand
      let yy :=
        match year_candidates.getLast? with
        | some y => y
        | none => parts.getLastD []
      let other_parts := parts.filter (fun p => ¬(p = yy))
      some (String.mk (fmtYMD (yearVal yy)
        (monthOrSentinel other_parts[1]?) (dayOrSentinel other_parts[0]?)))
    else if parts.length = 3 then
      some (String.mk (fmtYMD (yearVal ((parts[2]?).getD []))
        (monthOrSentinel parts[1]?) (dayOrSentinel parts[0]?)))
    else if parts.length = 2 then
      some (String.mk (fmtYM (yearVal ((parts[1]?).getD []))
        (monthOrSentinel parts[0]?)))
    else if yearOnlyMatch (dateNormChars dstr.toList) then
      some (String.mk (dateNormChars dstr.toList))
    else
      some (String.mk (dateStripped dstr.toList))

/-! ## clean_text (lines 275-285) -/

/-- `text.strip(" .:;,-_…")`. -/
def stripPunct (c : Char) : Bool :=
  c == ' ' || c == '.' || c == ':' || c == ';' || c == ',' || c == '-' ||
  c == '_' || c == '…'

/-- The class of `re.sub(r'[\.…]+', ' ', text)`. -/
def dotCls (c : Char) : Bool :=
  c == '.' || c == '…'

/-- Characters deleted by `.replace('.','').replace(',','').replace('…','')`. -/
def removedCls (c : Char) : Bool :=
  c == '.' || c == ',' || c == '…'

def cleanChars (l : List Char) : List Char :=
  collapseRuns pyWS ' '
    ((collapseRuns dotCls ' ' (pstrip stripPunct l)).filter (fun c => !removedCls c))

/-- Shallow embedding of `clean_text` (lines 275-285). -/
def clean_text (s : String) : String :=
  if s.isEmpty then s else String.mk (cleanChars s.toList)

/-! ## WordBox data model (`extract_word_boxes`, lines 89-126)

Geometry is modelled over `ℚ`.  A vertex whose `x` or `y` key is absent
is modelled with `none` (the `_safe_get` default of `0` is applied by
`wordBoxOfRaw`). -/

structure WordBox where
  text : String
  minx : ℚ
  miny : ℚ
  maxx : ℚ
  maxy : ℚ
  cx : ℚ
  cy : ℚ
  h : ℚ
  page : ℕ
deriving DecidableEq, Inhabited

structure PVertex where
  x : Option ℚ
  y : Option ℚ
deriving DecidableEq

structure RawSymbol where
  text : String
deriving DecidableEq

structure RawWord where
  symbols : List RawSymbol
  vertices : List PVertex
deriving DecidableEq

structure RawPara where
  words : List RawWord
deriving DecidableEq

structure RawBlock where
  paragraphs : List RawPara
deriving DecidableEq

structure RawPage where
  blocks : List RawBlock
deriving DecidableEq

/-- The `fullTextAnnotation` payload: pages → blocks → paragraphs →
words → symbols. -/
structure OcrDoc where
  pages : List RawPage
deriving DecidableEq

/-- Python `min` of a nonempty list (the `[]` case is unreachable at
call sites because of the `[0,0,0,0]` default). -/
def listMinQ : List ℚ → ℚ
  | [] => 0
  | x :: xs => xs.foldl min x

def listMaxQ : List ℚ → ℚ
  | [] => 0
  | x :: xs => xs.foldl max x

/-- One iteration of the word loop of `extract_word_boxes`
(lines 105-125). -/
def wordBoxOfRaw (p_idx : ℕ) (w : RawWord) : WordBox :=
  let word_text := String.join (w.symbols.map RawSymbol.text)
  let xs := w.vertices.map (fun v => v.x.getD 0)
  let ys := w.vertices.map (fun v => v.y.getD 0)
  let xs := if xs.isEmpty then [0, 0, 0, 0] else xs
  let ys := if ys.isEmpty then [0, 0, 0, 0] else ys
  let minx := listMinQ xs
  let maxx := listMaxQ xs
  let miny := listMinQ ys
  let maxy := listMaxQ ys
  let h := maxy - miny
  { text := word_text, minx := minx, maxx := maxx, miny := miny, maxy := maxy,
    cx := (minx + maxx) / 2, cy := (miny + maxy) / 2,
    h := if 0 < h then h else 10, page := p_idx }

/-- Shallow embedding of `extract_word_boxes` (lines 95-126): the nested
pages/blocks/paragraphs/words iteration appending one `WordBox` per
word, with the page index from `enumerate(pages)`. -/
def extract_word_boxes (doc : OcrDoc) : List WordBox :=
  (doc.pages.enum.map (fun ip =>
    (ip.2.blocks.map (fun blk =>
      (blk.paragraphs.map (fun para =>
        para.words.map (wordBoxOfRaw ip.1))).flatten)).flatten)).flatten

/-! ## A small regex engine

The extractors use `re.search` with a fixed repertoire of pattern
shapes: case-insensitive literals, alternations of literals, greedy
counted character classes (`X*`, `X+`, `X?`, `X{m,n}`), one capturing
group, and the word-boundary assertion `\b`.  `mseq` matches an item
sequence at the start of the input with full backtracking in Python's
priority order (greedy classes try longest first, alternatives in
written order); `rsearch` tries successive start positions, leftmost
first, exactly like `re.search`, and returns the text of the capturing
group (`[]` for patterns without one). -/

inductive RItem where
  | lit (cs : List Char)
  | litAlt (alts : List (List Char))
  | cls (p : Char → Bool) (lo : ℕ) (hi : Option ℕ)
  | bnd
  | grpOpen
  | grpClose

/-- Case mapping used both for `re.IGNORECASE` and `str.lower()`,
covering ASCII and the precomposed Latin/Vietnamese uppercase ranges
(`À`-`Þ`, Latin Extended-A, `Ơ`, `Ư`, and the Vietnamese additions
U+1EA0-U+1EF9). -/
def viToLower (c : Char) : Char :=
  if decide ('A' ≤ c) && decide (c ≤ 'Z') then Char.ofNat (c.toNat + 32)
  else if decide (0xc0 ≤ c.toNat) && decide (c.toNat ≤ 0xde) && c.toNat != 0xd7 then
    Char.ofNat (c.toNat + 32)
  else if decide (0x100 ≤ c.toNat) && decide (c.toNat ≤ 0x17f) && c.toNat % 2 == 0 then
    Char.ofNat (c.toNat + 1)
  else if c.toNat == 0x1a0 || c.toNat == 0x1af then Char.ofNat (c.toNat + 1)
  else if decide (0x1ea0 ≤ c.toNat) && decide (c.toNat ≤ 0x1ef9) && c.toNat % 2 == 0 then
    Char.ofNat (c.toNat + 1)
  else c

/-- Python `str.lower()` (same repertoire as `viToLower`). -/
def pyLower (l : List Char) : List Char :=
  l.map viToLower

/-- Regex `\w` (letters, digits, underscore; Latin-range letters
included), used only by the `\b` assertion. -/
def isWordChar (c : Char) : Bool :=
  c.isAlpha || c.isDigit || c == '_' ||
  (decide (0xc0 ≤ c.toNat) && decide (c.toNat ≤ 0x1ef9) &&
    c.toNat != 0xd7 && c.toNat != 0xf7)

def isWordOpt : Option Char → Bool
  | none => false
  | some c => isWordChar c

/-- Literal match under the case canonicalisation `canon` (identity for
case-sensitive patterns, `viToLower` for `re.IGNORECASE`). -/
def matchLit (canon : Char → Char) : List Char → List Char → Bool
  | [], _ => true
  | _ :: _, [] => false
  | c :: cs, x :: xs => (canon c == canon x) && matchLit canon cs xs

/-- `[n, n-1, …, 0]`: the greedy order in which a class tries match
lengths. -/
def countdown (n : ℕ) : List ℕ :=
  (List.range (n + 1)).reverse

/-- The character most recently consumed (for `\b`). -/
def consumedLast (t : List Char) (prev : Option Char) : Option Char :=
  match t.getLast? with
  | some c => some c
  | none => prev

/-- Match the item sequence against a prefix of `s`.  `prev` is the
character just before the current position, `g` whether we are inside
the capturing group, `acc` the reversed captured characters.  Returns
the captured text on success. -/
def mseq (canon : Char → Char) :
    List RItem → Option Char → List Char → Bool → List Char → Option (List Char)
  | [], _, _, _, acc => some acc.reverse
  | RItem.lit cs :: rest, prev, s, g, acc =>
    if matchLit canon cs s then
      mseq canon rest (consumedLast (s.take cs.length) prev) (s.drop cs.length) g
        (if g then (s.take cs.length).reverse ++ acc else acc)
    else none
  | RItem.litAlt alts :: rest, prev, s, g, acc =>
    firstSome (fun cs =>
      if matchLit canon cs s then
        mseq canon rest (consumedLast (s.take cs.length) prev) (s.drop cs.length) g
          (if g then (s.take cs.length).reverse ++ acc else acc)
      else none) alts
  | RItem.cls p lo hi :: rest, prev, s, g, acc =>
    firstSome (fun n =>
      if lo ≤ n then
        mseq canon rest (consumedLast (s.take n) prev) (s.drop n) g
          (if g then (s.take n).reverse ++ acc else acc)
      else none)
      (countdown (min (s.takeWhile p).length (hi.getD (s.takeWhile p).length)))
  | RItem.bnd :: rest, prev, s, g, acc =>
    if isWordOpt prev != isWordOpt s.head? then mseq canon rest prev s g acc
    else none
  | RItem.grpOpen :: rest, prev, s, _, acc => mseq canon rest prev s true acc
  | RItem.grpClose :: rest, prev, s, _, acc => mseq canon rest prev s false acc
termination_by structural items _ _ _ _ => items

/-- Try the match at every start position, leftmost first. -/
def searchAux (canon : Char → Char) (items : List RItem) :
    Option Char → List Char → Option (List Char)
  | prev, s =>
    match mseq canon items prev s false [] with
    | some cap => some cap
    | none =>
      match s with
      | [] => none
      | c :: cs => searchAux canon items (some c) cs

/-- `re.search(pattern, s)`, returning `group(1)` (or `[]` when the
pattern has no group). -/
def rsearch (canon : Char → Char) (items : List RItem) (s : List Char) :
    Option (List Char) :=
  searchAux canon items none s

/-- The text before the leftmost match (the whole text when there is no
match): `re.split(pat, s)[0]`. -/
def prefixBeforeAux (canon : Char → Char) (items : List RItem) :
    Option Char → List Char → List Char → List Char
  | prev, acc, s =>
    if (mseq canon items prev s false []).isSome then acc.reverse
    else
      match s with
      | [] => acc.reverse
      | c :: cs => prefixBeforeAux canon items (some c) (c :: acc) cs

def prefixBefore (canon : Char → Char) (items : List RItem) (s : List Char) :
    List Char :=
  prefixBeforeAux canon items none [] s

/-! ## The source's anchor patterns (lines 288-301, 303-409) -/

/-- `[:\s\-]` (also `[:\-\s]` in the major pattern). -/
def clsColonWsDash (c : Char) : Bool :=
  c == ':' || pyWS c || c == '-'

/-- `[:\-]`. -/
def clsColonDash (c : Char) : Bool :=
  c == ':' || c == '-'

/-- `[\d\s\-\.]` — the phone anchor capture class. -/
def clsDigitish (c : Char) : Bool :=
  c.isDigit || pyWS c || c == '-' || c == '.'

/-- `[\d\/\.\- ]` — the birth-date anchor capture class (a literal
space, not `\s`). -/
def clsDateish (c : Char) : Bool :=
  c.isDigit || c == '/' || c == '.' || c == '-' || c == ' '

/-- `.` (anything but a newline). -/
def clsDot (c : Char) : Bool :=
  c != '\n'

/-- `[A-Za-zÀ-ỹĐđ]` (the codepoint range U+00C0-U+1EF9 subsumes `Đđ`
and, as in Python, also `×`/`÷`). -/
def clsNameLetter (c : Char) : Bool :=
  (decide ('A' ≤ c) && decide (c ≤ 'Z')) || (decide ('a' ≤ c) && decide (c ≤ 'z')) ||
  (decide (0xc0 ≤ c.toNat) && decide (c.toNat ≤ 0x1ef9))

/-- `\s*`. -/
def wsStar : RItem :=
  RItem.cls pyWS 0 none

/-- `[:\s\-]*`. -/
def colWsDashStar : RItem :=
  RItem.cls clsColonWsDash 0 none

/-- `[:\-]?`. -/
def colDashOpt : RItem :=
  RItem.cls clsColonDash 0 (some 1)

/-- `(.+)` as a capturing group. -/
def dotPlusGrp : List RItem :=
  [RItem.grpOpen, RItem.cls clsDot 1 none, RItem.grpClose]

/-- `(?:tên tôi là|tên|họ và tên)[:\s\-]*(.+)` (NAME_ANCHOR_PATTERNS_VI). -/
def namePatVI : List RItem :=
  RItem.litAlt ["tên tôi là".toList, "tên".toList, "họ và tên".toList] ::
    colWsDashStar :: dotPlusGrp

/-- `(?:my name is|name|full name)[:\s\-]*(.+)` (NAME_ANCHOR_PATTERNS_EN). -/
def namePatEN : List RItem :=
  RItem.litAlt ["my name is".toList, "name".toList, "full name".toList] ::
    colWsDashStar :: dotPlusGrp

/-- `cộng hòa|độc lập` (HEADER_IGNORE_PATTERNS_VI). -/
def headerPatVI : List RItem :=
  [RItem.litAlt ["cộng hòa".toList, "độc lập".toList]]

/-- `united states` (HEADER_IGNORE_PATTERNS_EN). -/
def headerPatEN : List RItem :=
  [RItem.lit "united states".toList]

/-- `[A-Za-zÀ-ỹĐđ]`. -/
def letterPat : List RItem :=
  [RItem.cls clsNameLetter 1 (some 1)]

/-- `Số\s*điện\s*thoại[:\s\-]*([\d\s\-\.]+)`. -/
def phonePatVI : List RItem :=
  [RItem.lit "Số".toList, wsStar, RItem.lit "điện".toList, wsStar,
   RItem.lit "thoại".toList, colWsDashStar,
   RItem.grpOpen, RItem.cls clsDigitish 1 none, RItem.grpClose]

/-- `Phone[:\s\-]*([\d\s\-\.]+)`. -/
def phonePatEN : List RItem :=
  [RItem.lit "Phone".toList, colWsDashStar,
   RItem.grpOpen, RItem.cls clsDigitish 1 none, RItem.grpClose]

/-- `\b(0\d{9,10})\b`. -/
def phoneTok0 : List RItem :=
  [RItem.bnd, RItem.grpOpen, RItem.lit "0".toList,
   RItem.cls Char.isDigit 9 (some 10), RItem.grpClose, RItem.bnd]

/-- `\b(\d{9,11})\b`. -/
def phoneTok9 : List RItem :=
  [RItem.bnd, RItem.grpOpen, RItem.cls Char.isDigit 9 (some 11),
   RItem.grpClose, RItem.bnd]

/-- The four birth-date anchors of `extract_birth_date`, in order. -/
def birthPats : List (List RItem) :=
  [[RItem.lit "Ngày".toList, wsStar, RItem.lit "sinh".toList, colWsDashStar,
    RItem.grpOpen, RItem.cls clsDateish 1 none, RItem.grpClose],
   [RItem.lit "Sinh".toList, wsStar, RItem.lit "năm".toList, colWsDashStar,
    RItem.grpOpen, RItem.cls clsDateish 1 none, RItem.grpClose],
   [RItem.lit "Date".toList, wsStar, RItem.lit "of".toList, wsStar,
    RItem.lit "Birth".toList, colWsDashStar,
    RItem.grpOpen, RItem.cls clsDateish 1 none, RItem.grpClose],
   [RItem.lit "Birth".toList, wsStar, RItem.lit "date".toList, colWsDashStar,
    RItem.grpOpen, RItem.cls clsDateish 1 none, RItem.grpClose]]

/-- `Ngoại\s*ngữ[:\-]?\s*(.+)`. -/
def foreignPat : List RItem :=
  RItem.lit "Ngoại".toList :: wsStar :: RItem.lit "ngữ".toList ::
    colDashOpt :: wsStar :: dotPlusGrp

/-- `Nghề\s*nghiệp\s*chuyên\s*môn[:\-]?\s*(.+)`. -/
def professionPat : List RItem :=
  RItem.lit "Nghề".toList :: wsStar :: RItem.lit "nghiệp".toList :: wsStar ::
    RItem.lit "chuyên".toList :: wsStar :: RItem.lit "môn".toList ::
    colDashOpt :: wsStar :: dotPlusGrp

/-- `Ngành[:\-\s]*\s*(.+)`. -/
def majorPat : List RItem :=
  RItem.lit "Ngành".toList :: RItem.cls clsColonWsDash 0 none :: wsStar :: dotPlusGrp

/-- `Trình\s*độ\s*văn\s*hóa[:\-]?\s*(.+)`. -/
def culturalPat : List RItem :=
  RItem.lit "Trình".toList :: wsStar :: RItem.lit "độ".toList :: wsStar ::
    RItem.lit "văn".toList :: wsStar :: RItem.lit "hóa".toList ::
    colDashOpt :: wsStar :: dotPlusGrp

/-- `Ngoại\s*ngữ` — the `re.split` pattern inside
`extract_cultural_level`. -/
def ngoaiSplitPat : List RItem :=
  [RItem.lit "Ngoại".toList, wsStar, RItem.lit "ngữ".toList]

/-- `Địa\s*chỉ[:\-]?\s*(.+)`. -/
def addressPat : List RItem :=
  RItem.lit "Địa".toList :: wsStar :: RItem.lit "chỉ".toList ::
    colDashOpt :: wsStar :: dotPlusGrp

/-! ## FieldExtractor (lines 296-452) -/

/-- `" .:"` — the strip set used on captures and on document lines. -/
def stripDotColonSp (c : Char) : Bool :=
  c == ' ' || c == '.' || c == ':'

/-- `extract_text_after` (lines 296-301): first line whose
case-insensitive search matches; the capture is stripped of `" .:"` and
passed through `clean_text`. -/
def extract_text_after (pat : List RItem) (lines : List String) : Option String :=
  firstSome (fun ln =>
    match rsearch viToLower pat ln.toList with
    | some cap => some (clean_text (String.mk (pstrip stripDotColonSp cap)))
    | none => none) lines

def extract_foreign_language (lines : List String) : Option String :=
  extract_text_after foreignPat lines

def extract_profession (lines : List String) : Option String :=
  extract_text_after professionPat lines

def extract_major (lines : List String) : Option String :=
  extract_text_after majorPat lines

/-- `extract_cultural_level` (lines 325-337): like `extract_text_after`
but the capture is cut at an embedded `Ngoại ngữ` (`re.split(...)[0]`)
and is not stripped of `" .:"` first. -/
def extract_cultural_level (lines : List String) : Option String :=
  firstSome (fun ln =>
    match rsearch viToLower culturalPat ln.toList with
    | some cap => some (clean_text (String.mk (prefixBefore viToLower ngoaiSplitPat cap)))
    | none => none) lines

def extract_address (lines : List String) : Option String :=
  extract_text_after addressPat lines

/-- `candidate = m.group(1).strip(); candidate.split("\n")[0].strip();
name = candidate.strip(" .:")` (lines 356-358). -/
def nameFromCapture (cap : List Char) : String :=
  let cand := pstrip pyWS cap
  let cand := (splitSep '\n' cand).headD []
  let cand := pstrip pyWS cand
  String.mk (pstrip stripDotColonSp cand)

/-- Header test of the name fallback (line 362): both header patterns
are searched on `ln.lower()`. -/
def isHeaderLine (ln : String) : Bool :=
  (rsearch id headerPatVI (pyLower ln.toList)).isSome ||
    (rsearch id headerPatEN (pyLower ln.toList)).isSome

/-- Python `str.split()` with no argument: split on whitespace runs,
dropping empty tokens. -/
def pySplitWsAux : List Char → List Char → List (List Char)
  | acc, [] => if acc.isEmpty then [] else [acc.reverse]
  | acc, c :: cs =>
    if pyWS c then
      if acc.isEmpty then pySplitWsAux [] cs
      else acc.reverse :: pySplitWsAux [] cs
    else pySplitWsAux (c :: acc) cs

def pySplitWs (l : List Char) : List (List Char) :=
  pySplitWsAux [] l

/-- The name fallback loop (lines 360-365) over `reversed(lines)`:
last line with ≥2 whitespace-separated tokens containing a letter,
skipping header lines. -/
def nameFallback : List String → Option String
  | [] => none
  | ln :: rest =>
    if 2 ≤ (pySplitWs ln.toList).length ∧ (rsearch id letterPat ln.toList).isSome then
      if isHeaderLine ln then nameFallback rest else some ln
    else nameFallback rest

/-- `extract_name` (lines 346-366). -/
def extract_name (lines : List String) (joined : String) : Option String :=
  match rsearch viToLower namePatVI joined.toList with
  | some cap => some (nameFromCapture cap)
  | none =>
    match rsearch viToLower namePatEN joined.toList with
    | some cap => some (nameFromCapture cap)
    | none => nameFallback lines.reverse

/-- `re.sub(r"\D", "", x)`. -/
def phoneDigits (cap : List Char) : List Char :=
  cap.filter Char.isDigit

/-- The anchor loop of `extract_phone` (lines 377-383): digits of the
first anchor capture whose digit count lies in `[9, 12]`. -/
def phoneAnchorScan (joined : String) : Option String :=
  firstSome (fun pat =>
    match rsearch viToLower pat joined.toList with
    | some cap =>
      if 9 ≤ (phoneDigits cap).length ∧ (phoneDigits cap).length ≤ 12 then
        some (String.mk (phoneDigits cap))
      else none
    | none => none) [phonePatVI, phonePatEN]

/-- The fallback of `extract_phone` (lines 384-390). -/
def phone_fallback (joined : String) : Option String :=
  match rsearch id phoneTok0 joined.toList with
  | some cap => some (String.mk cap)
  | none =>
    match rsearch id phoneTok9 joined.toList with
    | some cap => some (String.mk cap)
    | none => none

/-- `extract_phone` (lines 368-391). -/
def extract_phone (joined : String) : Option String :=
  match phoneAnchorScan joined with
  | some p => some p
  | none => phone_fallback joined

/-- `extract_birth_date` (lines 393-409): first matching anchor's
capture, normalized. -/
def extract_birth_date (joined : String) : Option String :=
  match firstSome (fun pat => rsearch viToLower pat joined.toList) birthPats with
  | some cap => normalize_date_str (String.mk cap)
  | none => none

/-- The result record of `parse_document_text`; `experience` is always
empty (explicitly unimplemented in the source). -/
structure ParsedResume where
  name : Option String
  phone : Option String
  birth_date : Option String
  address : Option String
  cultural_level : Option String
  profession : Option String
  major : Option String
  foreign_language : Option String
  experience : List String
deriving DecidableEq

/-- `parse_document_text` (lines 420-452). -/
def parse_document_text (doc_text : String) : ParsedResume :=
  let lines := ((splitlinesChars doc_text.toList).filter
      (fun ln => !(pstrip pyWS ln).isEmpty)).map
      (fun ln => String.mk (pstrip stripDotColonSp ln))
  let joined := String.intercalate "\n" lines
  { name := extract_name lines joined,
    phone := extract_phone joined,
    birth_date := extract_birth_date joined,
    address := extract_address lines,
    cultural_level := extract_cultural_level lines,
    profession := extract_profession lines,
    major := extract_major lines,
    foreign_language := extract_foreign_language lines,
    experience := [] }

/-! ## LineClusterer (`group_words_to_lines`, lines 128-152)

Python's `sorted` is a stable sort by the key tuple
`(page, cy, minx)`; any stable sort with respect to the same total
preorder produces the same list, so it is modelled by
`List.insertionSort` (which is stable and kernel-reducible). -/

/-- The key order of `sorted(words, key=lambda w: (w["page"], w["cy"], w["minx"]))`. -/
def wordKeyLE (a b : WordBox) : Prop :=
  a.page < b.page ∨
    (a.page = b.page ∧ (a.cy < b.cy ∨ (a.cy = b.cy ∧ a.minx ≤ b.minx)))

instance : DecidableRel wordKeyLE := fun a b => by
  unfold wordKeyLE
  infer_instance

instance : IsTotal WordBox wordKeyLE :=
  ⟨by
    intro a b
    rcases lt_trichotomy a.page b.page with h | h | h
    · exact Or.inl (Or.inl h)
    · rcases lt_trichotomy a.cy b.cy with h2 | h2 | h2
      · exact Or.inl (Or.inr ⟨h, Or.inl h2⟩)
      · rcases le_total a.minx b.minx with h3 | h3
        · exact Or.inl (Or.inr ⟨h, Or.inr ⟨h2, h3⟩⟩)
        · exact Or.inr (Or.inr ⟨h.symm, Or.inr ⟨h2.symm, h3⟩⟩)
      · exact Or.inr (Or.inr ⟨h.symm, Or.inl h2⟩)
    · exact Or.inr (Or.inl h)⟩

instance : IsTrans WordBox wordKeyLE :=
  ⟨by
    intro a b c hab hbc
    rcases hab with h | ⟨hp1, hc1⟩ <;> rcases hbc with h2 | ⟨hp2, hc2⟩
    · exact Or.inl (lt_trans h h2)
    · exact Or.inl (hp2 ▸ h)
    · exact Or.inl (hp1 ▸ h2)
    · refine Or.inr ⟨hp1.trans hp2, ?_⟩
      rcases hc1 with h1 | ⟨he1, hm1⟩ <;> rcases hc2 with h2 | ⟨he2, hm2⟩
      · exact Or.inl (lt_trans h1 h2)
      · exact Or.inl (he2 ▸ h1)
      · exact Or.inl (he1 ▸ h2)
      · exact Or.inr ⟨he1.trans he2, le_trans hm1 hm2⟩⟩

/-- The per-line order `sorted(line, key=lambda x: x["minx"])`. -/
def minxLE (a b : WordBox) : Prop :=
  a.minx ≤ b.minx

instance : DecidableRel minxLE := fun a b => by
  unfold minxLE
  infer_instance

instance : IsTotal WordBox minxLE :=
  ⟨fun a b => le_total a.minx b.minx⟩

instance : IsTrans WordBox minxLE :=
  ⟨fun _ _ _ h1 h2 => le_trans h1 h2⟩

/-- `statistics.median`: middle of the sorted data, or the average of
the two middle elements for even length (callers guard the empty case). -/
def median (xs : List ℚ) : ℚ :=
  let s := List.insertionSort (fun a b : ℚ => a ≤ b) xs
  let n := s.length
  if n % 2 = 1 then s.getD (n / 2) 0
  else (s.getD (n / 2 - 1) 0 + s.getD (n / 2) 0) / 2

/-- `statistics.mean` (exact, over ℚ). -/
def listMean (xs : List ℚ) : ℚ :=
  xs.sum / (xs.length : ℚ)

/-- `current_line_center` (lines 141-142). -/
def current_line_center (line : List WordBox) : ℚ :=
  listMean (line.map WordBox.cy)

/-- The greedy sweep of lines 140-149: `cur` is the current line (kept
in order), and a word starts a new line when it is on another page or
its `cy` is farther than the threshold from the running mean of the
current line.  (`current_line[-1]` is `cur.getLastD w`; `cur` is never
empty at a call site.) -/
def sweep (thr : ℚ) : List WordBox → List WordBox → List (List WordBox)
  | cur, [] => [cur]
  | cur, w :: ws =>
    if w.page ≠ (cur.getLastD w).page ∨ thr < |w.cy - current_line_center cur| then
      cur :: sweep thr [w] ws
    else
      sweep thr (cur ++ [w]) ws

/-- Shallow embedding of `group_words_to_lines` (lines 128-152). -/
def group_words_to_lines (words : List WordBox) : List (List WordBox) :=
  match List.insertionSort wordKeyLE words with
  | [] => []
  | w0 :: rest =>
    let words_sorted := w0 :: rest
    let heights := (words_sorted.filter (fun w => decide (0 < w.h))).map WordBox.h
    let median_h := if heights.isEmpty then 12 else median heights
    let line_threshold := max 10 (median_h * (8 / 10))
    (sweep line_threshold [w0] rest).map (fun line => List.insertionSort minxLE line)

/-- The part of the sort order that the clustering invariants rely on:
pages are ordered, and `cy` is ordered within a page. -/
def wordKeyK (a b : WordBox) : Prop :=
  a.page ≤ b.page ∧ (a.page = b.page → a.cy ≤ b.cy)

end VisionService

namespace VisionService

/-! ## Theorems about the date normalizer -/

/-- C3: the four concrete date-normalization equations from the spec.
(The code returns Python `None` for empty input, hence `some` wraps the
results.) -/
theorem normalize_date_str_examples :
    normalize_date_str "27/01/1990" = some "1990-01-27" ∧
    normalize_date_str "01/1990" = some "1990-01" ∧
    normalize_date_str "1990" = some "1990" ∧
    normalize_date_str "99/99/1990" = some "1990-08-27" := by
  refine ⟨?_, ?_, ?_, ?_⟩ <;> decide

end VisionService

namespace VisionService

/-- C4 counterexample: when the chosen year group occurs twice among ≥4
groups, `other_parts = [p for p in parts if p != yy]` removes EVERY
occurrence, not only the chosen one: on "1995/3/1995/5" the code uses
day=3, month=5 ("1995-05-03"), while removing a single occurrence would
give raw day "1995" (→ sentinel 27) and month "3" ("1995-03-27"). -/
theorem normalize_date_str_dup_year :
    normalize_date_str "1995/3/1995/5" = some "1995-05-03" ∧
    ("1995-05-03" : String) ≠ "1995-03-27" := by
  refine ⟨by decide, by decide⟩

/-- C4 (amended): with ≥4 groups and at least one plausible-year group,
the year is the last group that is all digits with value ≥1000, and the
raw day and month are the first and second groups of the sequence
obtained by removing every group string-equal to the chosen year. -/
theorem normalize_date_str_four_groups (s : String)
    (h4 : 4 ≤ (dateParts s.toList).length)
    (yy : List Char)
    (hyy : ((dateParts s.toList).filter isYearCand).getLast? = some yy) :
    normalize_date_str s = some (String.mk (fmtYMD (yearVal yy)
      (monthOrSentinel ((dateParts s.toList).filter (fun p => ¬(p = yy)))[1]?)
      (dayOrSentinel ((dateParts s.toList).filter (fun p => ¬(p = yy)))[0]?))) := by
  have hne : s.isEmpty = false := by
    cases h : s.isEmpty
    · rfl
    · exfalso
      have hs : s = "" := (String.isEmpty_iff s).mp h
      subst hs
      have h1 : (dateParts "".toList).length = 1 := by decide
      omega
  simp only [normalize_date_str]
  rw [if_neg (by simp [hne]), if_pos h4, hyy]

theorem normalize_date_str_four_groups_witness :
    normalize_date_str "27/01/05/1990" = some (String.mk (fmtYMD
      (yearVal "1990".toList)
      (monthOrSentinel ((dateParts "27/01/05/1990".toList).filter
        (fun p => ¬(p = "1990".toList)))[1]?)
      (dayOrSentinel ((dateParts "27/01/05/1990".toList).filter
        (fun p => ¬(p = "1990".toList)))[0]?))) :=
  normalize_date_str_four_groups "27/01/05/1990" (by decide) "1990".toList (by decide)

/-- C8 counterexample: `clean_text` is not idempotent.  On "\ta" the
first pass turns the leading tab into a space (the `\s+` collapse),
which the initial `strip(" .:;,-_…")` of a second pass then removes. -/
theorem clean_text_not_idempotent :
    clean_text (clean_text "\ta") ≠ clean_text "\ta" := by decide

end VisionService

namespace VisionService

/-- Height facts for a single constructed box (helper). -/
theorem wordBoxOfRaw_height (i : ℕ) (w : RawWord) :
    0 < (wordBoxOfRaw i w).h ∧
      (wordBoxOfRaw i w).h =
        (if 0 < (wordBoxOfRaw i w).maxy - (wordBoxOfRaw i w).miny then
          (wordBoxOfRaw i w).maxy - (wordBoxOfRaw i w).miny else 10) := by
  constructor
  · simp only [wordBoxOfRaw]
    split_ifs <;> first | assumption | norm_num
  · simp only [wordBoxOfRaw]

/-- C9: every WordBox emitted by `extract_word_boxes` has positive
height: `h = maxy - miny` when that difference is positive and `h = 10`
otherwise (including vertex-free boxes whose geometry defaults to
`0,0,0,0`). -/
theorem extract_word_boxes_height_floor (doc : OcrDoc) :
    ∀ b ∈ extract_word_boxes doc, 0 < b.h ∧
      b.h = (if 0 < b.maxy - b.miny then b.maxy - b.miny else 10) := by
  intro b hb
  simp only [extract_word_boxes, List.mem_flatten, List.mem_map] at hb
  obtain ⟨_, ⟨ip, _, rfl⟩, hb⟩ := hb
  simp only [List.mem_flatten, List.mem_map] at hb
  obtain ⟨_, ⟨blk, _, rfl⟩, hb⟩ := hb
  simp only [List.mem_flatten, List.mem_map] at hb
  obtain ⟨_, ⟨para, _, rfl⟩, hb⟩ := hb
  simp only [List.mem_map] at hb
  obtain ⟨w, _, rfl⟩ := hb
  exact wordBoxOfRaw_height ip.1 w

theorem extract_word_boxes_height_floor_witness :
    0 < (wordBoxOfRaw 0 { symbols := [], vertices := [] }).h ∧
      (wordBoxOfRaw 0 { symbols := [], vertices := [] }).h =
        (if 0 < (wordBoxOfRaw 0 { symbols := [], vertices := [] }).maxy -
              (wordBoxOfRaw 0 { symbols := [], vertices := [] }).miny then
          (wordBoxOfRaw 0 { symbols := [], vertices := [] }).maxy -
            (wordBoxOfRaw 0 { symbols := [], vertices := [] }).miny
        else 10) :=
  extract_word_boxes_height_floor
    { pages := [{ blocks := [{ paragraphs := [{ words :=
        [{ symbols := [], vertices := [] }] }] }] }] }
    (wordBoxOfRaw 0 { symbols := [], vertices := [] })
    (List.Mem.head _)

end VisionService

namespace VisionService

/-! ## Lemmas about the string primitives (towards C8) -/

theorem collapseAux_cons_not (p : Char → Bool) (r : Char) (b : Bool)
    (c : Char) (cs : List Char) (hc : p c = false) :
    collapseAux p r b (c :: cs) = c :: collapseAux p r false cs := by
  simp [collapseAux, hc]

theorem collapseAux_cons_true_false (p : Char → Bool) (r : Char)
    (c : Char) (cs : List Char) (hc : p c = true) :
    collapseAux p r false (c :: cs) = r :: collapseAux p r true cs := by
  simp [collapseAux, hc]

theorem collapseAux_cons_true_true (p : Char → Bool) (r : Char)
    (c : Char) (cs : List Char) (hc : p c = true) :
    collapseAux p r true (c :: cs) = collapseAux p r true cs := by
  simp [collapseAux, hc]

theorem collapseAux_eq_self_of_not (p : Char → Bool) (r : Char) (b : Bool)
    (l : List Char) (h : ∀ c ∈ l, p c = false) : collapseAux p r b l = l := by
  induction l generalizing b with
  | nil => rfl
  | cons c cs ih =>
    have hc : p c = false := h c (List.mem_cons_self _ _)
    rw [collapseAux_cons_not p r b c cs hc,
      ih false (fun d hd => h d (List.mem_cons_of_mem _ hd))]

theorem mem_collapseAux (p : Char → Bool) (r : Char) (b : Bool) (l : List Char) :
    ∀ c ∈ collapseAux p r b l, c = r ∨ (c ∈ l ∧ p c = false) := by
  induction l generalizing b with
  | nil => intro c hc; cases hc
  | cons d cs ih =>
    intro c hc
    by_cases hd : p d = true
    · cases b with
      | true =>
        rw [collapseAux_cons_true_true p r d cs hd] at hc
        rcases ih true c hc with h | ⟨h1, h2⟩
        · exact Or.inl h
        · exact Or.inr ⟨List.mem_cons_of_mem _ h1, h2⟩
      | false =>
        rw [collapseAux_cons_true_false p r d cs hd] at hc
        rcases List.mem_cons.mp hc with h | h
        · exact Or.inl h
        · rcases ih true c h with h' | ⟨h1, h2⟩
          · exact Or.inl h'
          · exact Or.inr ⟨List.mem_cons_of_mem _ h1, h2⟩
    · have hd' : p d = false := by simpa using hd
      rw [collapseAux_cons_not p r b d cs hd'] at hc
      rcases List.mem_cons.mp hc with h | h
      · subst h; exact Or.inr ⟨List.mem_cons_self _ _, hd'⟩
      · rcases ih false c h with h' | ⟨h1, h2⟩
        · exact Or.inl h'
        · exact Or.inr ⟨List.mem_cons_of_mem _ h1, h2⟩

theorem collapseAux_getLast? (p : Char → Bool) (r : Char) (b : Bool)
    (l : List Char) (c : Char) (hlast : l.getLast? = some c) (hc : p c = false) :
    (collapseAux p r b l).getLast? = some c := by
  induction l generalizing b with
  | nil => cases hlast
  | cons d cs ih =>
    cases cs with
    | nil =>
      have hd : d = c := by simpa using hlast
      subst hd
      cases b with
      | true => rw [collapseAux_cons_not p r true d [] hc]; rfl
      | false => rw [collapseAux_cons_not p r false d [] hc]; rfl
    | cons e es =>
      have hlast' : (e :: es).getLast? = some c := by
        simpa [List.getLast?_cons_cons] using hlast
      by_cases hd : p d = true
      · cases b with
        | true =>
          rw [collapseAux_cons_true_true p r d (e :: es) hd]
          exact ih (b := true) hlast'
        | false =>
          rw [collapseAux_cons_true_false p r d (e :: es) hd,
            List.getLast?_cons, ih (b := true) hlast']
          rfl
      · have hd' : p d = false := by simpa using hd
        rw [collapseAux_cons_not p r b d (e :: es) hd',
          List.getLast?_cons, ih (b := false) hlast']
        rfl

theorem collapseAux_head_true (p : Char → Bool) (r : Char) (l : List Char) :
    ∀ c, (collapseAux p r true l).head? = some c → p c = false := by
  induction l with
  | nil => intro c h; cases h
  | cons d cs ih =>
    intro c h
    by_cases hd : p d = true
    · rw [collapseAux_cons_true_true p r d cs hd] at h
      exact ih c h
    · have hd' : p d = false := by simpa using hd
      rw [collapseAux_cons_not p r true d cs hd'] at h
      have : d = c := by simpa using h
      subst this
      exact hd'

theorem collapseAux_chain (p : Char → Bool) (r : Char) (b : Bool) (l : List Char) :
    List.Chain' (fun a c => ¬(p a = true ∧ p c = true)) (collapseAux p r b l) := by
  induction l generalizing b with
  | nil => simp [collapseAux]
  | cons d cs ih =>
    by_cases hd : p d = true
    · cases b with
      | true =>
        rw [collapseAux_cons_true_true p r d cs hd]
        exact ih (b := true)
      | false =>
        rw [collapseAux_cons_true_false p r d cs hd, List.chain'_cons']
        refine ⟨?_, ih (b := true)⟩
        intro y hy
        have := collapseAux_head_true p r cs y hy
        simp [this]
    · have hd' : p d = false := by simpa using hd
      rw [collapseAux_cons_not p r b d cs hd', List.chain'_cons']
      refine ⟨?_, ih (b := false)⟩
      intro y hy
      simp [hd']

theorem collapseAux_isolated (p : Char → Bool) (r : Char) (l : List Char)
    (hiso : ∀ c ∈ l, p c = true → c = r)
    (hchain : List.Chain' (fun a c => ¬(p a = true ∧ p c = true)) l) :
    collapseAux p r false l = l ∧
      ((∀ c, l.head? = some c → p c = false) → collapseAux p r true l = l) := by
  induction l with
  | nil => exact ⟨rfl, fun _ => rfl⟩
  | cons d cs ih =>
    have hiso' : ∀ c ∈ cs, p c = true → c = r :=
      fun c hc => hiso c (List.mem_cons_of_mem _ hc)
    have hchain' : List.Chain' (fun a c => ¬(p a = true ∧ p c = true)) cs :=
      hchain.tail
    obtain ⟨ih1, ih2⟩ := ih hiso' hchain'
    by_cases hd : p d = true
    · have hdr : d = r := hiso d (List.mem_cons_self _ _) hd
      have hhead : ∀ c, cs.head? = some c → p c = false := by
        intro c hc
        have := (List.chain'_cons'.mp hchain).1 c hc
        by_cases h : p c = true
        · exact absurd ⟨hd, h⟩ this
        · simpa using h
      constructor
      · rw [collapseAux_cons_true_false p r d cs hd, ih2 hhead, hdr]
      · intro hh
        have := hh d rfl
        rw [hd] at this
        cases this
    · have hd' : p d = false := by simpa using hd
      constructor
      · rw [collapseAux_cons_not p r false d cs hd', ih1]
      · intro _
        rw [collapseAux_cons_not p r true d cs hd', ih1]

end VisionService

namespace VisionService

theorem dropRightWhile_append (p : Char → Bool) (m : List Char) :
    ∃ t, m = dropRightWhile p m ++ t ∧ ∀ c ∈ t, p c = true := by
  refine ⟨(m.reverse.takeWhile p).reverse, ?_, ?_⟩
  · conv_rhs =>
      rw [dropRightWhile, ← List.reverse_append, List.takeWhile_append_dropWhile,
        List.reverse_reverse]
  · intro c hc
    exact List.mem_takeWhile_imp (List.mem_reverse.mp hc)

theorem head?_dropWhile (p : Char → Bool) (m : List Char)
    (c : Char) (h : (m.dropWhile p).head? = some c) : p c = false := by
  have hm := List.head?_dropWhile_not p m
  rw [h] at hm
  exact hm

theorem pstrip_head (p : Char → Bool) (l : List Char)
    (c : Char) (h : (pstrip p l).head? = some c) : p c = false := by
  obtain ⟨t, ht, -⟩ := dropRightWhile_append p (l.dropWhile p)
  have ht' : l.dropWhile p = pstrip p l ++ t := ht
  apply head?_dropWhile p l c
  rw [ht']
  cases hh : pstrip p l with
  | nil => rw [hh] at h; cases h
  | cons a as =>
    rw [hh] at h
    simpa using h

theorem pstrip_getLast (p : Char → Bool) (l : List Char)
    (c : Char) (h : (pstrip p l).getLast? = some c) : p c = false := by
  rw [pstrip, dropRightWhile, List.getLast?_reverse] at h
  exact head?_dropWhile p (l.dropWhile p).reverse c h

theorem pstrip_mem (p : Char → Bool) (l : List Char) :
    ∀ c ∈ pstrip p l, c ∈ l := by
  intro c hc
  obtain ⟨t, ht, -⟩ := dropRightWhile_append p (l.dropWhile p)
  have ht' : l.dropWhile p = pstrip p l ++ t := ht
  have hm : c ∈ l.dropWhile p := by
    rw [ht']
    exact List.mem_append_left _ hc
  exact List.Sublist.mem hm (List.dropWhile_sublist p)

theorem pstrip_eq_self (p : Char → Bool) (l : List Char)
    (hhead : ∀ c, l.head? = some c → p c = false)
    (hlast : ∀ c, l.getLast? = some c → p c = false) :
    pstrip p l = l := by
  have h1 : l.dropWhile p = l := by
    cases l with
    | nil => rfl
    | cons a as =>
      have := hhead a rfl
      simp [List.dropWhile_cons, this]
  rw [pstrip, h1, dropRightWhile]
  have h2 : l.reverse.dropWhile p = l.reverse := by
    cases hr : l.reverse with
    | nil => rfl
    | cons a as =>
      have ha : l.getLast? = some a := by
        rw [List.getLast?_eq_head?_reverse, hr]
        rfl
      have := hlast a ha
      simp [List.dropWhile_cons, this]
  rw [h2, List.reverse_reverse]

theorem filter_head (q : Char → Bool) (l : List Char) (c : Char)
    (h : l.head? = some c) (hq : q c = true) : (l.filter q).head? = some c := by
  cases l with
  | nil => cases h
  | cons a as =>
    have : a = c := by simpa using h
    subst this
    simp [List.filter_cons, hq]

theorem filter_getLast (q : Char → Bool) (l : List Char) (c : Char)
    (h : l.getLast? = some c) (hq : q c = true) :
    (l.filter q).getLast? = some c := by
  rw [List.getLast?_eq_head?_reverse, ← List.filter_reverse]
  apply filter_head q l.reverse c ?_ hq
  rw [List.getLast?_eq_head?_reverse] at h
  exact h

theorem removedCls_stripPunct (c : Char) (h : removedCls c = true) :
    stripPunct c = true := by
  simp only [removedCls, Bool.or_eq_true, beq_iff_eq] at h
  rcases h with (h | h) | h <;> subst h <;> decide

theorem dotCls_removedCls (c : Char) (h : dotCls c = true) :
    removedCls c = true := by
  simp only [dotCls, Bool.or_eq_true, beq_iff_eq] at h
  rcases h with h | h <;> subst h <;> decide

/-! ## Structure of `cleanChars` output (towards C8) -/

theorem cleanChars_no_removed (l : List Char) :
    ∀ c ∈ cleanChars l, removedCls c = false := by
  intro c hc
  simp only [cleanChars, collapseRuns] at hc
  rcases mem_collapseAux pyWS ' ' false _ c hc with h | ⟨h1, -⟩
  · subst h; decide
  · have := (List.mem_filter.mp h1).2
    simpa using this

theorem cleanChars_ws_space (l : List Char) :
    ∀ c ∈ cleanChars l, pyWS c = true → c = ' ' := by
  intro c hc hw
  simp only [cleanChars, collapseRuns] at hc
  rcases mem_collapseAux pyWS ' ' false _ c hc with h | ⟨-, h2⟩
  · exact h
  · rw [hw] at h2; cases h2

theorem cleanChars_chain (l : List Char) :
    List.Chain' (fun a c => ¬(pyWS a = true ∧ pyWS c = true)) (cleanChars l) := by
  simp only [cleanChars, collapseRuns]
  exact collapseAux_chain pyWS ' ' false _

theorem cleanChars_head (l : List Char)
    (hws : ∀ c ∈ l, pyWS c = true → c = ' ') :
    ∀ c, (cleanChars l).head? = some c →
      stripPunct c = false ∧ pyWS c = false := by
  intro c hc
  simp only [cleanChars, collapseRuns] at hc
  cases hA : pstrip stripPunct l with
  | nil =>
    rw [hA] at hc
    simp only [collapseAux, List.filter_nil] at hc
    cases hc
  | cons a as =>
    have hastrip : stripPunct a = false := by
      apply pstrip_head stripPunct l a
      rw [hA]
      rfl
    have hamem : a ∈ l := pstrip_mem stripPunct l a (by rw [hA]; exact List.mem_cons_self _ _)
    have haws : pyWS a = false := by
      cases h : pyWS a
      · rfl
      · have := hws a hamem h
        subst this
        cases hastrip
    have hadot : dotCls a = false := by
      cases h : dotCls a
      · rfl
      · rw [removedCls_stripPunct a (dotCls_removedCls a h)] at hastrip
        cases hastrip
    have harem : removedCls a = false := by
      cases h : removedCls a
      · rfl
      · rw [removedCls_stripPunct a h] at hastrip
        cases hastrip
    rw [hA, collapseAux_cons_not dotCls ' ' false a as hadot] at hc
    have hCh : ((a :: collapseAux dotCls ' ' false as).filter
        (fun c => !removedCls c)).head? = some a :=
      filter_head _ _ a rfl (by simp [harem])
    cases hC : (a :: collapseAux dotCls ' ' false as).filter (fun c => !removedCls c) with
    | nil => rw [hC] at hCh; cases hCh
    | cons b bs =>
      rw [hC] at hCh hc
      have hba : b = a := by simpa using hCh
      subst hba
      rw [collapseAux_cons_not pyWS ' ' false b bs haws] at hc
      have : b = c := by simpa using hc
      subst this
      exact ⟨hastrip, haws⟩

theorem cleanChars_getLast (l : List Char)
    (hws : ∀ c ∈ l, pyWS c = true → c = ' ') :
    ∀ c, (cleanChars l).getLast? = some c →
      stripPunct c = false ∧ pyWS c = false := by
  intro c hc
  simp only [cleanChars, collapseRuns] at hc
  cases hA : pstrip stripPunct l with
  | nil =>
    rw [hA] at hc
    simp only [collapseAux, List.filter_nil] at hc
    cases hc
  | cons a as =>
    have hAne : pstrip stripPunct l ≠ [] := by rw [hA]; exact List.cons_ne_nil _ _
    obtain ⟨z, hz⟩ : ∃ z, (pstrip stripPunct l).getLast? = some z :=
      ⟨_, List.getLast?_eq_getLast _ hAne⟩
    have hzstrip : stripPunct z = false := pstrip_getLast stripPunct l z hz
    have hzmem : z ∈ l := by
      apply pstrip_mem stripPunct l z
      have := List.getLast?_eq_getLast (pstrip stripPunct l) hAne
      rw [this] at hz
      have hzz := Option.some.inj hz
      rw [← hzz]
      exact List.getLast_mem hAne
    have hzws : pyWS z = false := by
      cases h : pyWS z
      · rfl
      · have := hws z hzmem h
        subst this
        cases hzstrip
    have hzdot : dotCls z = false := by
      cases h : dotCls z
      · rfl
      · rw [removedCls_stripPunct z (dotCls_removedCls z h)] at hzstrip
        cases hzstrip
    have hzrem : removedCls z = false := by
      cases h : removedCls z
      · rfl
      · rw [removedCls_stripPunct z h] at hzstrip
        cases hzstrip
    have hB : (collapseAux dotCls ' ' false (pstrip stripPunct l)).getLast? = some z :=
      collapseAux_getLast? dotCls ' ' false _ z hz hzdot
    have hC : ((collapseAux dotCls ' ' false (pstrip stripPunct l)).filter
        (fun c => !removedCls c)).getLast? = some z :=
      filter_getLast _ _ z hB (by simp [hzrem])
    have hD := collapseAux_getLast? pyWS ' ' false _ z hC hzws
    rw [hc] at hD
    have : z = c := (Option.some.inj hD).symm
    subst this
    exact ⟨hzstrip, hzws⟩

theorem cleanChars_fixed (l : List Char)
    (hnr : ∀ c ∈ l, removedCls c = false)
    (hws : ∀ c ∈ l, pyWS c = true → c = ' ')
    (hchain : List.Chain' (fun a c => ¬(pyWS a = true ∧ pyWS c = true)) l)
    (hhead : ∀ c, l.head? = some c → stripPunct c = false)
    (hlast : ∀ c, l.getLast? = some c → stripPunct c = false) :
    cleanChars l = l := by
  have hA : pstrip stripPunct l = l := pstrip_eq_self _ _ hhead hlast
  have hdot : ∀ c ∈ l, dotCls c = false := by
    intro c hc
    cases h : dotCls c
    · rfl
    · exfalso
      have h1 := dotCls_removedCls c h
      rw [hnr c hc] at h1
      cases h1
  have hB : collapseAux dotCls ' ' false l = l :=
    collapseAux_eq_self_of_not _ _ _ _ hdot
  have hC : l.filter (fun c => !removedCls c) = l :=
    List.filter_eq_self.mpr (by intro a ha; simp [hnr a ha])
  have hD : collapseAux pyWS ' ' false l = l :=
    (collapseAux_isolated pyWS ' ' l hws hchain).1
  simp only [cleanChars, collapseRuns]
  rw [hA, hB, hC, hD]

/-- C8 (amended): `clean_text` is idempotent on every string whose
whitespace characters are all the plain space `' '`.  (In general a
non-space whitespace character at either end survives the initial
`strip(" .:;,-_…")` and is turned into `' '` by the `\s+` collapse, which
a second pass then strips — see `clean_text_not_idempotent`.) -/
theorem clean_text_idem (s : String)
    (hws : ∀ c ∈ s.toList, pyWS c = true → c = ' ') :
    clean_text (clean_text s) = clean_text s := by
  by_cases hs : s.isEmpty = true
  · have : s = "" := (String.isEmpty_iff s).mp hs
    subst this
    rfl
  · have hs' : s.isEmpty = false := by simpa using hs
    have hcs : clean_text s = String.mk (cleanChars s.toList) := by
      rw [clean_text, if_neg (by simp [hs'])]
    rw [hcs]
    by_cases hD : cleanChars s.toList = []
    · rw [hD]
      decide
    · have hne : ¬((String.mk (cleanChars s.toList)).isEmpty = true) := by
        intro h
        have h1 := (String.isEmpty_iff _).mp h
        have h2 : cleanChars s.toList = [] := congrArg String.data h1
        exact hD h2
      rw [clean_text, if_neg hne]
      refine congrArg String.mk ?_
      refine cleanChars_fixed _ (cleanChars_no_removed _) (cleanChars_ws_space _)
        (cleanChars_chain _) ?_ ?_
      · intro c hc
        exact (cleanChars_head s.toList hws c hc).1
      · intro c hc
        exact (cleanChars_getLast s.toList hws c hc).1

theorem clean_text_idem_witness :
    clean_text (clean_text "Nguyen Van A") = clean_text "Nguyen Van A" :=
  clean_text_idem "Nguyen Van A" (by decide)

end VisionService

namespace VisionService

/-! ## Theorems about the field extractors -/

/-- C2: the end-to-end spec scenario: name, birth date and phone are
extracted from the three-line document. -/
theorem parse_document_text_scenario :
    (parse_document_text
      "Họ và tên: Nguyen Van A\nNgày sinh: 27/08/1995\nSố điện thoại: 0987654321").name =
        some "Nguyen Van A" ∧
    (parse_document_text
      "Họ và tên: Nguyen Van A\nNgày sinh: 27/08/1995\nSố điện thoại: 0987654321").birth_date =
        some "1995-08-27" ∧
    (parse_document_text
      "Họ và tên: Nguyen Van A\nNgày sinh: 27/08/1995\nSố điện thoại: 0987654321").phone =
        some "0987654321" := by
  refine ⟨?_, ?_, ?_⟩ <;> decide

/-- C6 counterexample: the name field is NOT post-processed by
`clean_text` — `extract_name` only strips `" .:"` (line 358), so an
interior comma survives, and the returned value is not a `clean_text`
fixed point. -/
theorem parse_name_not_cleaned :
    (parse_document_text "Họ và tên: Nguyen, Van A").name = some "Nguyen, Van A" ∧
    clean_text "Nguyen, Van A" ≠ "Nguyen, Van A" := by
  refine ⟨by decide, by decide⟩

/-- C6 (amended): every value produced by `extract_text_after` (address,
profession, major, foreign language) and by `extract_cultural_level`
equals `clean_text` applied to the text captured on the first matching
line (for `extract_text_after` the capture is first stripped of `" .:"`,
for `extract_cultural_level` it is first cut at an embedded
`Ngoại ngữ`). -/
theorem free_text_fields_cleaned :
    (∀ (pat : List RItem) (lines : List String) (v : String),
      extract_text_after pat lines = some v →
      ∃ pre ln post cap, lines = pre ++ ln :: post ∧
        (∀ l ∈ pre, rsearch viToLower pat l.toList = none) ∧
        rsearch viToLower pat ln.toList = some cap ∧
        v = clean_text (String.mk (pstrip stripDotColonSp cap))) ∧
    (∀ (lines : List String) (v : String),
      extract_cultural_level lines = some v →
      ∃ pre ln post cap, lines = pre ++ ln :: post ∧
        (∀ l ∈ pre, rsearch viToLower culturalPat l.toList = none) ∧
        rsearch viToLower culturalPat ln.toList = some cap ∧
        v = clean_text (String.mk (prefixBefore viToLower ngoaiSplitPat cap))) := by
  constructor
  · intro pat lines v h
    induction lines with
    | nil => cases h
    | cons ln rest ih =>
      cases hs : rsearch viToLower pat ln.toList with
      | some cap =>
        have hval : extract_text_after pat (ln :: rest) =
            some (clean_text (String.mk (pstrip stripDotColonSp cap))) := by
          simp only [extract_text_after, firstSome, hs]
        rw [hval] at h
        refine ⟨[], ln, rest, cap, rfl, ?_, hs, (Option.some.inj h).symm⟩
        intro l hl
        cases hl
      | none =>
        have hval : extract_text_after pat (ln :: rest) = extract_text_after pat rest := by
          simp only [extract_text_after, firstSome, hs]
        rw [hval] at h
        obtain ⟨pre, ln', post, cap, heq, hpre, hln, hv⟩ := ih h
        refine ⟨ln :: pre, ln', post, cap, by rw [List.cons_append, heq], ?_, hln, hv⟩
        intro l hl
        rcases List.mem_cons.mp hl with h1 | h1
        · subst h1; exact hs
        · exact hpre l h1
  · intro lines v h
    induction lines with
    | nil => cases h
    | cons ln rest ih =>
      cases hs : rsearch viToLower culturalPat ln.toList with
      | some cap =>
        have hval : extract_cultural_level (ln :: rest) =
            some (clean_text (String.mk (prefixBefore viToLower ngoaiSplitPat cap))) := by
          simp only [extract_cultural_level, firstSome, hs]
        rw [hval] at h
        refine ⟨[], ln, rest, cap, rfl, ?_, hs, (Option.some.inj h).symm⟩
        intro l hl
        cases hl
      | none =>
        have hval : extract_cultural_level (ln :: rest) = extract_cultural_level rest := by
          simp only [extract_cultural_level, firstSome, hs]
        rw [hval] at h
        obtain ⟨pre, ln', post, cap, heq, hpre, hln, hv⟩ := ih h
        refine ⟨ln :: pre, ln', post, cap, by rw [List.cons_append, heq], ?_, hln, hv⟩
        intro l hl
        rcases List.mem_cons.mp hl with h1 | h1
        · subst h1; exact hs
        · exact hpre l h1

theorem free_text_fields_cleaned_witness :
    ∃ pre ln post cap, (["x", "Địa chỉ: Hanoi"] : List String) = pre ++ ln :: post ∧
      (∀ l ∈ pre, rsearch viToLower addressPat l.toList = none) ∧
      rsearch viToLower addressPat ln.toList = some cap ∧
      "Hanoi" = clean_text (String.mk (pstrip stripDotColonSp cap)) :=
  free_text_fields_cleaned.1 addressPat ["x", "Địa chỉ: Hanoi"] "Hanoi" (by decide)

end VisionService

namespace VisionService

/-- C7: anchor-then-fallback behaviour of `extract_phone`: a matching
anchor's captured digits are returned exactly when their count is in
`[9, 12]` (the Vietnamese anchor first, then `Phone`); when the anchors
produce nothing the fallback `phone_fallback` (standalone `0`-token of
10-11 digits, else standalone 9-11-digit token, else none) is used; and
the concrete spec example holds. -/
theorem extract_phone_spec (joined : String) :
    (∀ cap, rsearch viToLower phonePatVI joined.toList = some cap →
      9 ≤ (phoneDigits cap).length → (phoneDigits cap).length ≤ 12 →
      extract_phone joined = some (String.mk (phoneDigits cap))) ∧
    (∀ cap, rsearch viToLower phonePatVI joined.toList = none →
      rsearch viToLower phonePatEN joined.toList = some cap →
      9 ≤ (phoneDigits cap).length → (phoneDigits cap).length ≤ 12 →
      extract_phone joined = some (String.mk (phoneDigits cap))) ∧
    (∀ cap cap', rsearch viToLower phonePatVI joined.toList = some cap' →
      ¬(9 ≤ (phoneDigits cap').length ∧ (phoneDigits cap').length ≤ 12) →
      rsearch viToLower phonePatEN joined.toList = some cap →
      9 ≤ (phoneDigits cap).length → (phoneDigits cap).length ≤ 12 →
      extract_phone joined = some (String.mk (phoneDigits cap))) ∧
    ((∀ cap', rsearch viToLower phonePatVI joined.toList = some cap' →
        ¬(9 ≤ (phoneDigits cap').length ∧ (phoneDigits cap').length ≤ 12)) →
     (∀ cap', rsearch viToLower phonePatEN joined.toList = some cap' →
        ¬(9 ≤ (phoneDigits cap').length ∧ (phoneDigits cap').length ≤ 12)) →
      extract_phone joined = phone_fallback joined) ∧
    extract_phone "Số điện thoại: 0912-345-678" = some "0912345678" := by
  refine ⟨?_, ?_, ?_, ?_, by decide⟩
  · intro cap h1 h2 h3
    have hscan : phoneAnchorScan joined = some (String.mk (phoneDigits cap)) := by
      simp only [phoneAnchorScan, firstSome, h1]
      rw [if_pos (⟨h2, h3⟩ :
        9 ≤ (phoneDigits cap).length ∧ (phoneDigits cap).length ≤ 12)]
    simp only [extract_phone, hscan]
  · intro cap h0 h1 h2 h3
    have hscan : phoneAnchorScan joined = some (String.mk (phoneDigits cap)) := by
      simp only [phoneAnchorScan, firstSome, h0, h1]
      rw [if_pos (⟨h2, h3⟩ :
        9 ≤ (phoneDigits cap).length ∧ (phoneDigits cap).length ≤ 12)]
    simp only [extract_phone, hscan]
  · intro cap cap' h1' hinv h1 h2 h3
    have hscan : phoneAnchorScan joined = some (String.mk (phoneDigits cap)) := by
      simp only [phoneAnchorScan, firstSome, h1', h1]
      rw [if_neg hinv, if_pos (⟨h2, h3⟩ :
        9 ≤ (phoneDigits cap).length ∧ (phoneDigits cap).length ≤ 12)]
    simp only [extract_phone, hscan]
  · intro hvi hen
    have hscan : phoneAnchorScan joined = none := by
      cases h1 : rsearch viToLower phonePatVI joined.toList with
      | some cap1 =>
        cases h2 : rsearch viToLower phonePatEN joined.toList with
        | some cap2 =>
          simp only [phoneAnchorScan, firstSome, h1, h2]
          rw [if_neg (hvi cap1 h1), if_neg (hen cap2 h2)]
        | none =>
          simp only [phoneAnchorScan, firstSome, h1, h2]
          rw [if_neg (hvi cap1 h1)]
      | none =>
        cases h2 : rsearch viToLower phonePatEN joined.toList with
        | some cap2 =>
          simp only [phoneAnchorScan, firstSome, h1, h2]
          rw [if_neg (hen cap2 h2)]
        | none =>
          simp only [phoneAnchorScan, firstSome, h1, h2]
    simp only [extract_phone, hscan]

theorem extract_phone_spec_witness :
    extract_phone "Số điện thoại: 0912-345-678" =
      some (String.mk (phoneDigits "0912-345-678".toList)) :=
  (extract_phone_spec "Số điện thoại: 0912-345-678").1 "0912-345-678".toList
    (by decide) (by decide) (by decide)

/-- C10: each line-anchored extractor returns the value derived from the
earliest matching line; later lines never influence the result; with no
matching line the result is `none`.  The generic statements cover
`extract_address`, `extract_profession`, `extract_major` and
`extract_foreign_language` (which are `extract_text_after` at their
patterns, last four conjuncts), and `extract_cultural_level` has its own
loop of the same shape. -/
theorem line_extractors_first_match :
    (∀ (pat : List RItem) (pre : List String) (ln : String) (post : List String)
        (cap : List Char),
      (∀ l ∈ pre, rsearch viToLower pat l.toList = none) →
      rsearch viToLower pat ln.toList = some cap →
      extract_text_after pat (pre ++ ln :: post) =
        some (clean_text (String.mk (pstrip stripDotColonSp cap)))) ∧
    (∀ (pat : List RItem) (lines : List String),
      (∀ l ∈ lines, rsearch viToLower pat l.toList = none) →
      extract_text_after pat lines = none) ∧
    (∀ (pre : List String) (ln : String) (post : List String) (cap : List Char),
      (∀ l ∈ pre, rsearch viToLower culturalPat l.toList = none) →
      rsearch viToLower culturalPat ln.toList = some cap →
      extract_cultural_level (pre ++ ln :: post) =
        some (clean_text (String.mk (prefixBefore viToLower ngoaiSplitPat cap)))) ∧
    (∀ (lines : List String),
      (∀ l ∈ lines, rsearch viToLower culturalPat l.toList = none) →
      extract_cultural_level lines = none) ∧
    extract_address = extract_text_after addressPat ∧
    extract_profession = extract_text_after professionPat ∧
    extract_major = extract_text_after majorPat ∧
    extract_foreign_language = extract_text_after foreignPat := by
  refine ⟨?_, ?_, ?_, ?_, rfl, rfl, rfl, rfl⟩
  · intro pat pre ln post cap hpre hln
    induction pre with
    | nil =>
      simp only [List.nil_append]
      simp only [extract_text_after, firstSome, hln]
    | cons p pre' ih =>
      have hp : rsearch viToLower pat p.toList = none :=
        hpre p (List.mem_cons_self _ _)
      have hpre' : ∀ l ∈ pre', rsearch viToLower pat l.toList = none :=
        fun l hl => hpre l (List.mem_cons_of_mem _ hl)
      simp only [List.cons_append, extract_text_after, firstSome, hp]
      exact ih hpre'
  · intro pat lines hmatch
    induction lines with
    | nil => rfl
    | cons p rest ih =>
      have hp : rsearch viToLower pat p.toList = none :=
        hmatch p (List.mem_cons_self _ _)
      have hrest : ∀ l ∈ rest, rsearch viToLower pat l.toList = none :=
        fun l hl => hmatch l (List.mem_cons_of_mem _ hl)
      simp only [extract_text_after, firstSome, hp]
      exact ih hrest
  · intro pre ln post cap hpre hln
    induction pre with
    | nil =>
      simp only [List.nil_append]
      simp only [extract_cultural_level, firstSome, hln]
    | cons p pre' ih =>
      have hp : rsearch viToLower culturalPat p.toList = none :=
        hpre p (List.mem_cons_self _ _)
      have hpre' : ∀ l ∈ pre', rsearch viToLower culturalPat l.toList = none :=
        fun l hl => hpre l (List.mem_cons_of_mem _ hl)
      simp only [List.cons_append, extract_cultural_level, firstSome, hp]
      exact ih hpre'
  · intro lines hmatch
    induction lines with
    | nil => rfl
    | cons p rest ih =>
      have hp : rsearch viToLower culturalPat p.toList = none :=
        hmatch p (List.mem_cons_self _ _)
      have hrest : ∀ l ∈ rest, rsearch viToLower culturalPat l.toList = none :=
        fun l hl => hmatch l (List.mem_cons_of_mem _ hl)
      simp only [extract_cultural_level, firstSome, hp]
      exact ih hrest

theorem line_extractors_first_match_witness :
    extract_text_after addressPat (["x"] ++ "Địa chỉ: Hanoi" :: ["Địa chỉ: Saigon"]) =
      some (clean_text (String.mk (pstrip stripDotColonSp "Hanoi".toList))) :=
  line_extractors_first_match.1 addressPat ["x"] "Địa chỉ: Hanoi" ["Địa chỉ: Saigon"]
    "Hanoi".toList
    (by intro l hl; cases List.mem_singleton.mp hl; decide)
    (by decide)

end VisionService

namespace VisionService

/-! ## Lemmas about the line clusterer (towards C1) -/

theorem sweep_flatten (thr : ℚ) (ws : List WordBox) :
    ∀ cur, (sweep thr cur ws).flatten = cur ++ ws := by
  induction ws with
  | nil => intro cur; simp [sweep]
  | cons w ws ih =>
    intro cur
    by_cases h : w.page ≠ (cur.getLastD w).page ∨ thr < |w.cy - current_line_center cur|
    · simp only [sweep, if_pos h, List.flatten_cons, ih]
      simp
    · simp only [sweep, if_neg h, ih]
      simp

theorem sweep_ne_nil (thr : ℚ) (ws : List WordBox) :
    ∀ cur, cur ≠ [] → ∀ l ∈ sweep thr cur ws, l ≠ [] := by
  induction ws with
  | nil =>
    intro cur hcur l hl
    simp only [sweep, List.mem_singleton] at hl
    subst hl
    exact hcur
  | cons w ws ih =>
    intro cur hcur l hl
    by_cases h : w.page ≠ (cur.getLastD w).page ∨ thr < |w.cy - current_line_center cur|
    · simp only [sweep, if_pos h] at hl
      rcases List.mem_cons.mp hl with h1 | h1
      · subst h1; exact hcur
      · exact ih [w] (List.cons_ne_nil _ _) l h1
    · simp only [sweep, if_neg h] at hl
      exact ih (cur ++ [w]) (by simp) l hl

theorem getLastD_mem_of_ne_nil (l : List WordBox) (d : WordBox) (h : l ≠ []) :
    l.getLastD d ∈ l := by
  rw [List.getLastD_eq_getLast?, List.getLast?_eq_getLast l h]
  exact List.getLast_mem h

theorem sweep_uniform_page (thr : ℚ) (ws : List WordBox) :
    ∀ cur, (∀ a ∈ cur, ∀ b ∈ cur, a.page = b.page) →
      ∀ l ∈ sweep thr cur ws, ∀ a ∈ l, ∀ b ∈ l, a.page = b.page := by
  induction ws with
  | nil =>
    intro cur hcur l hl
    simp only [sweep, List.mem_singleton] at hl
    subst hl
    exact hcur
  | cons w ws ih =>
    intro cur hcur l hl
    by_cases h : w.page ≠ (cur.getLastD w).page ∨ thr < |w.cy - current_line_center cur|
    · simp only [sweep, if_pos h] at hl
      rcases List.mem_cons.mp hl with h1 | h1
      · subst h1; exact hcur
      · refine ih [w] ?_ l h1
        intro a ha b hb
        rw [List.mem_singleton] at ha hb
        subst ha; subst hb; rfl
    · simp only [sweep, if_neg h] at hl
      push_neg at h
      obtain ⟨hpage, -⟩ := h
      refine ih (cur ++ [w]) ?_ l hl
      have hcw : ∀ a ∈ cur, a.page = w.page := by
        intro a ha
        have hne : cur ≠ [] := by
          intro hnil
          subst hnil
          cases ha
        have hlmem : cur.getLastD w ∈ cur := getLastD_mem_of_ne_nil cur w hne
        rw [hcur a ha (cur.getLastD w) hlmem, hpage]
      intro a ha b hb
      rcases List.mem_append.mp ha with ha1 | ha1 <;>
        rcases List.mem_append.mp hb with hb1 | hb1
      · exact hcur a ha1 b hb1
      · rw [List.mem_singleton] at hb1
        subst hb1
        exact hcw a ha1
      · rw [List.mem_singleton] at ha1
        subst ha1
        exact (hcw b hb1).symm
      · rw [List.mem_singleton] at ha1 hb1
        subst ha1; subst hb1; rfl

theorem sweep_chain (thr : ℚ) (ws : List WordBox) :
    ∀ cur, List.Pairwise wordKeyK (cur ++ ws) →
      List.Chain' (fun l1 l2 => ∀ a ∈ l1, ∀ b ∈ l2, wordKeyK a b)
        (sweep thr cur ws) := by
  induction ws with
  | nil =>
    intro cur _
    simp only [sweep]
    exact List.chain'_singleton _
  | cons w ws ih =>
    intro cur h
    by_cases hb : w.page ≠ (cur.getLastD w).page ∨ thr < |w.cy - current_line_center cur|
    · simp only [sweep, if_pos hb]
      rw [List.chain'_cons']
      constructor
      · intro y hy a ha b hbmem
        have hmemy : y ∈ sweep thr [w] ws := List.mem_of_mem_head? hy
        have hbj : b ∈ ([w] ++ ws) := by
          have : b ∈ (sweep thr [w] ws).flatten :=
            List.mem_flatten.mpr ⟨y, hmemy, hbmem⟩
          rwa [sweep_flatten] at this
        have hK := (List.pairwise_append.mp h).2.2
        apply hK a ha
        simpa using hbj
      · apply ih [w]
        have := (List.pairwise_append.mp h).2.1
        simpa using this
    · simp only [sweep, if_neg hb]
      apply ih (cur ++ [w])
      rw [List.append_assoc]
      simpa using h

theorem wordKeyLE_imp_K (a b : WordBox) (h : wordKeyLE a b) : wordKeyK a b := by
  rcases h with h | ⟨hp, hc⟩
  · refine ⟨le_of_lt h, fun he => ?_⟩
    exact absurd he (by omega)
  · refine ⟨le_of_eq hp, fun _ => ?_⟩
    rcases hc with h | ⟨h1, -⟩
    · exact le_of_lt h
    · exact le_of_eq h1

theorem listMean_le (xs : List ℚ) (c : ℚ) (hne : xs ≠ []) (h : ∀ x ∈ xs, x ≤ c) :
    listMean xs ≤ c := by
  have hlen : 0 < (xs.length : ℚ) := by
    have := List.length_pos.mpr hne
    exact_mod_cast this
  rw [listMean, div_le_iff₀ hlen]
  have := List.sum_le_card_nsmul xs c h
  simpa [nsmul_eq_mul, mul_comm] using this

theorem le_listMean (xs : List ℚ) (c : ℚ) (hne : xs ≠ []) (h : ∀ x ∈ xs, c ≤ x) :
    c ≤ listMean xs := by
  have hlen : 0 < (xs.length : ℚ) := by
    have := List.length_pos.mpr hne
    exact_mod_cast this
  rw [listMean, le_div_iff₀ hlen]
  have := List.card_nsmul_le_sum xs c h
  simpa [nsmul_eq_mul, mul_comm] using this

theorem center_le_center (l1 l2 : List WordBox) (h1 : l1 ≠ []) (h2 : l2 ≠ [])
    (h : ∀ a ∈ l1, ∀ b ∈ l2, a.cy ≤ b.cy) :
    current_line_center l1 ≤ current_line_center l2 := by
  apply listMean_le _ _ (by simpa using h1)
  intro x hx
  rw [List.mem_map] at hx
  obtain ⟨a, ha, rfl⟩ := hx
  apply le_listMean _ _ (by simpa using h2)
  intro y hy
  rw [List.mem_map] at hy
  obtain ⟨b, hb, rfl⟩ := hy
  exact h a ha b hb

theorem center_perm (l1 l2 : List WordBox) (h : l1.Perm l2) :
    current_line_center l1 = current_line_center l2 := by
  have hm : (l1.map WordBox.cy).Perm (l2.map WordBox.cy) := h.map _
  rw [current_line_center, current_line_center, listMean, listMean,
    hm.sum_eq, hm.length_eq]

theorem chain'_imp_mem {α : Type} {R S : α → α → Prop} :
    ∀ {l : List α}, List.Chain' R l →
      (∀ a ∈ l, ∀ b ∈ l, R a b → S a b) → List.Chain' S l
  | [], _, _ => List.chain'_nil
  | [_], _, _ => List.chain'_singleton _
  | a :: b :: l, h, hmem => by
    rw [List.chain'_cons] at h ⊢
    refine ⟨hmem a (List.mem_cons_self _ _) b
      (List.mem_cons_of_mem _ (List.mem_cons_self _ _)) h.1, ?_⟩
    exact chain'_imp_mem h.2
      (fun x hx y hy => hmem x (List.mem_cons_of_mem _ hx) y (List.mem_cons_of_mem _ hy))

/-- Properties of the mapped sweep output, for an arbitrary threshold
(none of the claimed invariants depends on the threshold value). -/
theorem grouped_props (thr : ℚ) (w0 : WordBox) (rest : List WordBox)
    (lines : List (List WordBox))
    (hlines : lines = (sweep thr [w0] rest).map (fun line => List.insertionSort minxLE line))
    (hsorted : List.Pairwise wordKeyK (w0 :: rest)) :
    lines.flatten.Perm (w0 :: rest) ∧
    List.Chain' (fun l1 l2 => ∀ a ∈ l1, ∀ b ∈ l2, a.page ≤ b.page) lines ∧
    List.Chain' (fun l1 l2 => (∃ a ∈ l1, ∃ b ∈ l2, a.page = b.page) →
      current_line_center l1 ≤ current_line_center l2) lines ∧
    (∀ l ∈ lines, (∀ a ∈ l, ∀ b ∈ l, a.page = b.page) ∧ l.Pairwise minxLE) := by
  have hpair : List.Pairwise wordKeyK ([w0] ++ rest) := by simpa using hsorted
  have hchain := sweep_chain thr rest [w0] hpair
  have hne := sweep_ne_nil thr rest [w0] (List.cons_ne_nil _ _)
  have huni := sweep_uniform_page thr rest [w0]
    (by intro a ha b hb
        rw [List.mem_singleton] at ha hb
        subst ha; subst hb; rfl)
  refine ⟨?_, ?_, ?_, ?_⟩
  · -- flatten is a permutation of the sorted words
    have hjoin : (sweep thr [w0] rest).flatten = w0 :: rest := by
      rw [sweep_flatten]
      rfl
    have hmapperm : ∀ L : List (List WordBox),
        ((L.map (fun line => List.insertionSort minxLE line)).flatten).Perm L.flatten := by
      intro L
      induction L with
      | nil => exact List.Perm.refl _
      | cons x L ihL =>
        simp only [List.map_cons, List.flatten_cons]
        exact (List.perm_insertionSort minxLE x).append ihL
    rw [hlines]
    exact (hmapperm (sweep thr [w0] rest)).trans (by rw [hjoin])
  · rw [hlines, List.chain'_map]
    refine hchain.imp ?_
    intro l1 l2 h x hx y hy
    exact (h x ((List.perm_insertionSort minxLE l1).mem_iff.mp hx) y
      ((List.perm_insertionSort minxLE l2).mem_iff.mp hy)).1
  · rw [hlines, List.chain'_map]
    refine chain'_imp_mem hchain ?_
    intro l1 hl1 l2 hl2 hR hex
    obtain ⟨a, ha, b, hb, hab⟩ := hex
    have ha' : a ∈ l1 := (List.perm_insertionSort minxLE l1).mem_iff.mp ha
    have hb' : b ∈ l2 := (List.perm_insertionSort minxLE l2).mem_iff.mp hb
    have huni1 := huni l1 hl1
    have huni2 := huni l2 hl2
    have hcy : ∀ x ∈ l1, ∀ y ∈ l2, x.cy ≤ y.cy := by
      intro x hx y hy
      have hpe : x.page = y.page :=
        (huni1 x hx a ha').trans (hab.trans (huni2 b hb' y hy))
      exact (hR x hx y hy).2 hpe
    have hc := center_le_center l1 l2 (hne l1 hl1) (hne l2 hl2) hcy
    rw [center_perm _ _ (List.perm_insertionSort minxLE l1),
      center_perm _ _ (List.perm_insertionSort minxLE l2)]
    exact hc
  · intro l hl
    rw [hlines, List.mem_map] at hl
    obtain ⟨l0, hl0, rfl⟩ := hl
    constructor
    · intro a ha b hb
      have hp := List.perm_insertionSort minxLE l0
      exact huni l0 hl0 a (hp.mem_iff.mp ha) b (hp.mem_iff.mp hb)
    · exact List.sorted_insertionSort minxLE l0

/-- C1: `group_words_to_lines` (1) emits lines whose concatenation is a
permutation of the input (every WordBox appears exactly once), (2) line
pages are non-decreasing along the output, (3) within a page the mean
`cy` of successive lines is non-decreasing, (4) each line is single-page
and sorted left-to-right by `minx`, and (5) the empty input yields the
empty list. -/
theorem group_words_to_lines_spec (words : List WordBox) :
    ((group_words_to_lines words).flatten.Perm words) ∧
    List.Chain' (fun l1 l2 => ∀ a ∈ l1, ∀ b ∈ l2, a.page ≤ b.page)
      (group_words_to_lines words) ∧
    List.Chain' (fun l1 l2 => (∃ a ∈ l1, ∃ b ∈ l2, a.page = b.page) →
      current_line_center l1 ≤ current_line_center l2)
      (group_words_to_lines words) ∧
    (∀ l ∈ group_words_to_lines words,
      (∀ a ∈ l, ∀ b ∈ l, a.page = b.page) ∧ l.Pairwise minxLE) ∧
    group_words_to_lines ([] : List WordBox) = [] := by
  cases hs : List.insertionSort wordKeyLE words with
  | nil =>
    have hperm := List.perm_insertionSort wordKeyLE words
    rw [hs] at hperm
    have hw : words = [] := (hperm.symm).eq_nil
    subst hw
    refine ⟨?_, ?_, ?_, ?_, rfl⟩ <;> simp [group_words_to_lines]
  | cons w0 rest =>
    have hperm : (w0 :: rest).Perm words := by
      rw [← hs]
      exact List.perm_insertionSort _ _
    have hsorted : List.Pairwise wordKeyK (w0 :: rest) := by
      have hst := List.sorted_insertionSort wordKeyLE words
      rw [hs] at hst
      exact hst.imp (fun h => wordKeyLE_imp_K _ _ h)
    obtain ⟨h1, h2, h3, h4⟩ := grouped_props _ w0 rest (group_words_to_lines words)
      (by simp only [group_words_to_lines, hs]; rfl) hsorted
    exact ⟨h1.trans hperm, h2, h3, h4, rfl⟩

theorem group_words_to_lines_spec_witness :
    group_words_to_lines ([] : List WordBox) = [] :=
  (group_words_to_lines_spec []).2.2.2.2

end VisionService
